import Mathlib

/-!
Verification of the PLDF fitting engine (FittingPLDF notebook).

The numerical core of the program is shallowly embedded over the real
numbers: float arithmetic becomes exact real arithmetic, numpy
transcendental functions become their Mathlib counterparts, arrays become
functions of their indices and lists, and the assertion in the planet
counting helper becomes an Option.  The module level integration grid is
the one built by log_grid with its default resolution 100 x 100.  The
global variables threaded through the likelihood (the per bin completeness
grid and the per bin radius split) are passed as explicit arguments, which
mirrors how the notebook rebinds them once per mass bin.
-/

open Real

/-- Shorthand for the period and radius limits, from GetRange. -/
def Pmin : ℝ := 2

/-- Upper period limit, from GetRange. -/
def Pmax : ℝ := 100

/-- Lower radius limit, from GetRange. -/
def Rmin : ℝ := 1.0

/-- Upper radius limit, from GetRange. -/
def Rmax : ℝ := 3.5

/-- One point of np.geomspace a b n: the log spaced value a*(b/a)^(i/(n-1)). -/
noncomputable def geomspace (a b : ℝ) (n i : ℕ) : ℝ :=
  a * (b / a) ^ ((i : ℝ) / ((n : ℝ) - 1))

/-- Period coordinate array x of log_grid. -/
noncomputable def gridx (nx i : ℕ) : ℝ := geomspace Pmin Pmax nx i

/-- Radius coordinate array y of log_grid. -/
noncomputable def gridy (ny j : ℕ) : ℝ := geomspace Rmin Rmax ny j

/-- The quantity logspace_x of log_grid: exp((log x[nx-1] - log x[0])/(nx-1)). -/
noncomputable def logspace_x (nx : ℕ) : ℝ :=
  Real.exp ((Real.log (gridx nx (nx - 1)) - Real.log (gridx nx 0)) / ((nx : ℝ) - 1))

/-- The quantity logspace_y of log_grid. -/
noncomputable def logspace_y (ny : ℕ) : ℝ :=
  Real.exp ((Real.log (gridy ny (ny - 1)) - Real.log (gridy ny 0)) / ((ny : ℝ) - 1))

/-- Cell width dP of log_grid: dP = P*(logspace_x - 1), one constant ratio for all cells. -/
noncomputable def dPw (nx i : ℕ) : ℝ := gridx nx i * (logspace_x nx - 1)

/-- Cell width dR of log_grid: dR = R*(logspace_y - 1). -/
noncomputable def dRw (ny j : ℕ) : ℝ := gridy ny j * (logspace_y ny - 1)

/-- The scaling of the radius valley with host star mass, from ScaledRadius. -/
noncomputable def ScaledRadius (R M : ℝ) : ℝ := R * M ^ ((1 : ℝ) / 4)

/-- The module level radius split Rsplit = ScaledRadius() = 2 * 1^(1/4). -/
noncomputable def Rsplit0 : ℝ := ScaledRadius 2 1

/-- The free parameter vector, in the fixed order used by every component. -/
structure Fparam where
  F0 : ℝ
  P_break : ℝ
  beta_1 : ℝ
  beta_2 : ℝ
  P_central : ℝ
  chi_1 : ℝ
  chi_2 : ℝ
  s : ℝ

/-- Broken power law factor occ_SEMN of g: (P/P_break)**where(P<P_break, beta_1, beta_2). -/
noncomputable def occ_SEMN (P : ℝ) (p : Fparam) : ℝ :=
  (P / p.P_break) ^ (if P < p.P_break then p.beta_1 else p.beta_2)

/-- Hyperbolic tangent step sx of g. -/
noncomputable def sx (P : ℝ) (p : Fparam) : ℝ :=
  0.5 + 0.5 * Real.tanh ((Real.logb 10 P - Real.logb 10 p.P_central) / Real.logb 10 p.s)

/-- Mixing fraction X of g, interpolating chi_1 and chi_2 across the tanh step. -/
noncomputable def Xmix (P : ℝ) (p : Fparam) : ℝ :=
  p.chi_1 * (1 - sx P p) + sx P p * p.chi_2

/-- Split fraction g2 of g, built from a = log Rmin, b = log Rsplit, c = log Rmax. -/
noncomputable def g2f (Rsplit P : ℝ) (p : Fparam) : ℝ :=
  Xmix P p * (Real.log Rmax - Real.log Rsplit) /
    ((Real.log Rsplit - Real.log Rmin) + Xmix P p * (Real.log Rmax - Real.log Rsplit) -
      Xmix P p * (Real.log Rsplit - Real.log Rmin))

/-- The shape function g(P,R,fparam); the ambient Rsplit is passed explicitly. -/
noncomputable def g (Rsplit P R : ℝ) (p : Fparam) : ℝ :=
  (if R < Rsplit then g2f Rsplit P p else 1 - g2f Rsplit P p) / R * occ_SEMN P p

/-- The grid sum np.sum(g(intP,intR,fparam) * dP * dR) over the fixed 100 x 100 grid. -/
noncomputable def gIntegral (Rsplit : ℝ) (p : Fparam) : ℝ :=
  ∑ j ∈ Finset.range 100, ∑ i ∈ Finset.range 100,
    g Rsplit (gridx 100 i) (gridy 100 j) p * dPw 100 i * dRw 100 j

/-- Normalization constant Cn, from function_Cn: the reciprocal of the grid sum. -/
noncomputable def function_Cn (Rsplit : ℝ) (p : Fparam) : ℝ := 1 / gIntegral Rsplit p

/-- The full PLDF df(P,R,fparam) = F0 * Cn * g. -/
noncomputable def df (Rsplit P R : ℝ) (p : Fparam) : ℝ :=
  p.F0 * function_Cn Rsplit p * g Rsplit P R p

/-- The completeness weighted grid sum inside function_Nexp; W is the per bin
OneRunCompletenessGrid, indexed W j i like the meshgrid arrays. -/
noncomputable def NexpIntegral (W : ℕ → ℕ → ℝ) (Rsplit : ℝ) (p : Fparam) : ℝ :=
  ∑ j ∈ Finset.range 100, ∑ i ∈ Finset.range 100,
    W j i * g Rsplit (gridx 100 i) (gridy 100 j) p * dPw 100 i * dRw 100 j

/-- Expected detection count, from function_Nexp: F0 * Cn * integral. -/
noncomputable def function_Nexp (W : ℕ → ℕ → ℝ) (Rsplit : ℝ) (p : Fparam) : ℝ :=
  p.F0 * function_Cn Rsplit p * NexpIntegral W Rsplit p

/-- Planet count helper function_Npl; the assert on equal lengths becomes none. -/
def function_Npl (P R : List ℝ) : Option ℕ :=
  if P.length = R.length then some P.length else none

/-- Log likelihood lnL(fparam,P,R); none exactly when function_Npl raises. -/
noncomputable def lnL (W : ℕ → ℕ → ℝ) (Rsplit : ℝ) (p : Fparam) (P R : List ℝ) : Option ℝ :=
  (function_Npl P R).map (fun Npl : ℕ =>
    -(function_Nexp W Rsplit p) + (Npl : ℝ) * Real.log p.F0 +
      (Npl : ℝ) * Real.log (function_Cn Rsplit p) +
      (List.map (fun q => Real.log (g Rsplit q.1 q.2 p)) (P.zip R)).sum)

/-- The conjunction of bounds checked by log_prior, in the order of the source. -/
def priorCond (p : Fparam) : Prop :=
  0.05 < p.F0 ∧ p.F0 < 5 ∧
  2 < p.P_break ∧ p.P_break < 20 ∧
  -2 < p.beta_1 ∧ p.beta_1 < 5 ∧
  -2 < p.beta_2 ∧ p.beta_2 < 5 ∧
  4 < p.P_central ∧ p.P_central < 50 ∧
  (1 - p.chi_1) < p.chi_1 ∧
  0 < p.chi_1 ∧ p.chi_1 < 1 ∧
  0 < p.chi_2 ∧ p.chi_2 < 0.5 ∧
  1 < p.s ∧ p.s < 5 ∧
  Real.logb 10 (2 * Pmin) ≤ Real.logb 10 p.P_central - Real.logb 10 p.s ∧
  Real.logb 10 (0.5 * Pmax) ≥ Real.logb 10 p.P_central + Real.logb 10 p.s

open Classical in
/-- Log prior, from log_prior: 0 inside the bounded support, -inf outside. -/
noncomputable def log_prior (p : Fparam) : EReal :=
  if priorCond p then (0 : EReal) else ⊥

open Classical in
/-- Log posterior with the likelihood abstracted, to express that the guard
branch never evaluates the likelihood: the code returns -inf when the prior
is not finite, and prior + lnL otherwise. -/
noncomputable def log_posteriorAux (L : Fparam → List ℝ → List ℝ → Option ℝ)
    (p : Fparam) (P R : List ℝ) : Option EReal :=
  if log_prior p = ⊥ ∨ log_prior p = ⊤ then some ⊥
  else (L p P R).map (fun l => log_prior p + (l : EReal))

/-- Log posterior, from log_posterior. -/
noncomputable def log_posterior (W : ℕ → ℕ → ℝ) (Rsplit : ℝ)
    (p : Fparam) (P R : List ℝ) : Option EReal :=
  log_posteriorAux (lnL W Rsplit) p P R

/-- The interior point θ0 = (1,10,1,-1,20,0.8,0.2,2) named by the spec. -/
noncomputable def theta0 : Fparam :=
  ⟨1, 10, 1, -1, 20, 0.8, 0.2, 2⟩

/-- The prior violating point: theta0 with F0 replaced by 10. -/
noncomputable def thetaBad : Fparam :=
  ⟨10, 10, 1, -1, 20, 0.8, 0.2, 2⟩

/-- The hyperbolic tangent stays below 1. -/
lemma tanh_lt_one (x : ℝ) : Real.tanh x < 1 := by
  rw [Real.tanh_eq_sinh_div_cosh, div_lt_one (Real.cosh_pos x)]
  exact Real.sinh_lt_cosh x

/-- The hyperbolic tangent stays above -1. -/
lemma neg_one_lt_tanh (x : ℝ) : -1 < Real.tanh x := by
  rw [Real.tanh_eq_sinh_div_cosh, lt_div_iff₀ (Real.cosh_pos x)]
  nlinarith [Real.sinh_add_cosh x, Real.exp_pos x]

/-- The tanh step sx lies strictly between 0 and 1. -/
lemma sx_mem (P : ℝ) (p : Fparam) : 0 < sx P p ∧ sx P p < 1 := by
  unfold sx
  constructor
  · nlinarith [neg_one_lt_tanh ((Real.logb 10 P - Real.logb 10 p.P_central) / Real.logb 10 p.s)]
  · nlinarith [tanh_lt_one ((Real.logb 10 P - Real.logb 10 p.P_central) / Real.logb 10 p.s)]

/-- The mixing fraction X lies strictly between 0 and 1 when both chi values do. -/
lemma Xmix_mem (P : ℝ) (p : Fparam) (hc1 : 0 < p.chi_1) (hc1u : p.chi_1 < 1)
    (hc2 : 0 < p.chi_2) (hc2u : p.chi_2 < 1) : 0 < Xmix P p ∧ Xmix P p < 1 := by
  obtain ⟨h0, h1⟩ := sx_mem P p
  unfold Xmix
  constructor <;> nlinarith

/-- The split fraction g2 lies strictly between 0 and 1 on valid inputs. -/
lemma g2f_mem (Rs P : ℝ) (p : Fparam) (hc1 : 0 < p.chi_1) (hc1u : p.chi_1 < 1)
    (hc2 : 0 < p.chi_2) (hc2u : p.chi_2 < 1) (hRs : 1 < Rs) (hRsu : Rs < 3.5) :
    0 < g2f Rs P p ∧ g2f Rs P p < 1 := by
  obtain ⟨hX0, hX1⟩ := Xmix_mem P p hc1 hc1u hc2 hc2u
  have ha : Real.log Rmin = 0 := by
    unfold Rmin; norm_num
  have hb : 0 < Real.log Rs := Real.log_pos hRs
  have hc : Real.log Rs < Real.log Rmax := by
    unfold Rmax
    exact Real.log_lt_log (by linarith) (by exact_mod_cast hRsu)
  have hden : 0 < (Real.log Rs - Real.log Rmin) +
      Xmix P p * (Real.log Rmax - Real.log Rs) -
      Xmix P p * (Real.log Rs - Real.log Rmin) := by nlinarith
  unfold g2f
  constructor
  · exact div_pos (by nlinarith) hden
  · rw [div_lt_one hden]; nlinarith

/-- The shape function is strictly positive at positive (P, R) whenever the
power law break is positive, the mixing ratios lie in (0,1), and the radius
split lies strictly inside (Rmin, Rmax). -/
lemma g_pos (Rs P R : ℝ) (p : Fparam) (hP : 0 < P) (hR : 0 < R)
    (hPb : 0 < p.P_break) (hc1 : 0 < p.chi_1) (hc1u : p.chi_1 < 1)
    (hc2 : 0 < p.chi_2) (hc2u : p.chi_2 < 1) (hRs : 1 < Rs) (hRsu : Rs < 3.5) :
    0 < g Rs P R p := by
  obtain ⟨hg0, hg1⟩ := g2f_mem Rs P p hc1 hc1u hc2 hc2u hRs hRsu
  have hocc : 0 < occ_SEMN P p := by
    unfold occ_SEMN
    exact Real.rpow_pos_of_pos (div_pos hP hPb) _
  unfold g
  have hsplit : 0 < (if R < Rs then g2f Rs P p else 1 - g2f Rs P p) := by
    split
    · exact hg0
    · linarith
  exact mul_pos (div_pos hsplit hR) hocc

/-- A geomspace sample with positive endpoints is positive. -/
lemma geomspace_pos (a b : ℝ) (n i : ℕ) (ha : 0 < a) (hb : 0 < b) :
    0 < geomspace a b n i :=
  mul_pos ha (Real.rpow_pos_of_pos (div_pos hb ha) _)

/-- Every period grid coordinate is positive. -/
lemma gridx_pos (nx i : ℕ) : 0 < gridx nx i := by
  unfold gridx Pmin Pmax
  exact geomspace_pos _ _ _ _ (by norm_num) (by norm_num)

/-- Every radius grid coordinate is positive. -/
lemma gridy_pos (ny j : ℕ) : 0 < gridy ny j := by
  unfold gridy Rmin Rmax
  exact geomspace_pos _ _ _ _ (by norm_num) (by norm_num)

/-- The first geomspace sample is the left endpoint. -/
lemma geomspace_zero (a b : ℝ) (n : ℕ) : geomspace a b n 0 = a := by
  unfold geomspace
  norm_num

/-- The last geomspace sample is the right endpoint once n is at least 2. -/
lemma geomspace_last (a b : ℝ) (n : ℕ) (ha : a ≠ 0) (hn : 2 ≤ n) :
    geomspace a b n (n - 1) = b := by
  unfold geomspace
  have h1 : ((n - 1 : ℕ) : ℝ) = (n : ℝ) - 1 := by
    have h1n : 1 ≤ n := by omega
    rw [Nat.cast_sub h1n, Nat.cast_one]
  have h2 : ((n : ℝ) - 1) ≠ 0 := by
    have : (2 : ℝ) ≤ (n : ℝ) := by exact_mod_cast hn
    linarith
  rw [h1, div_self h2, Real.rpow_one]
  field_simp

/-- Endpoints of the period coordinates. -/
lemma gridx_ends (nx : ℕ) (h : 2 ≤ nx) : gridx nx 0 = Pmin ∧ gridx nx (nx - 1) = Pmax := by
  unfold gridx
  refine ⟨geomspace_zero _ _ _, geomspace_last _ _ _ ?_ h⟩
  unfold Pmin; norm_num

/-- Endpoints of the radius coordinates. -/
lemma gridy_ends (ny : ℕ) (h : 2 ≤ ny) : gridy ny 0 = Rmin ∧ gridy ny (ny - 1) = Rmax := by
  unfold gridy
  refine ⟨geomspace_zero _ _ _, geomspace_last _ _ _ ?_ h⟩
  unfold Rmin; norm_num

/-- Closed form of the period ratio: the end to end geometric ratio. -/
lemma logspace_x_eq (nx : ℕ) (h : 2 ≤ nx) :
    logspace_x nx = Real.exp ((Real.log Pmax - Real.log Pmin) / ((nx : ℝ) - 1)) := by
  unfold logspace_x
  rw [(gridx_ends nx h).1, (gridx_ends nx h).2]

/-- Closed form of the radius ratio. -/
lemma logspace_y_eq (ny : ℕ) (h : 2 ≤ ny) :
    logspace_y ny = Real.exp ((Real.log Rmax - Real.log Rmin) / ((ny : ℝ) - 1)) := by
  unfold logspace_y
  rw [(gridy_ends ny h).1, (gridy_ends ny h).2]

/-- The period ratio exceeds 1. -/
lemma one_lt_logspace_x (nx : ℕ) (h : 2 ≤ nx) : 1 < logspace_x nx := by
  rw [logspace_x_eq nx h, Real.one_lt_exp_iff]
  have hlog : Real.log Pmin < Real.log Pmax := by
    unfold Pmin Pmax
    exact Real.log_lt_log (by norm_num) (by norm_num)
  have hn : (0 : ℝ) < (nx : ℝ) - 1 := by
    have : (2 : ℝ) ≤ (nx : ℝ) := by exact_mod_cast h
    linarith
  exact div_pos (by linarith) hn

/-- The radius ratio exceeds 1. -/
lemma one_lt_logspace_y (ny : ℕ) (h : 2 ≤ ny) : 1 < logspace_y ny := by
  rw [logspace_y_eq ny h, Real.one_lt_exp_iff]
  have hlog : Real.log Rmin < Real.log Rmax := by
    unfold Rmin Rmax
    exact Real.log_lt_log (by norm_num) (by norm_num)
  have hn : (0 : ℝ) < (ny : ℝ) - 1 := by
    have : (2 : ℝ) ≤ (ny : ℝ) := by exact_mod_cast h
    linarith
  exact div_pos (by linarith) hn

/-- Every period cell width is positive. -/
lemma dPw_pos (nx i : ℕ) (h : 2 ≤ nx) : 0 < dPw nx i :=
  mul_pos (gridx_pos nx i) (by linarith [one_lt_logspace_x nx h])

/-- Every radius cell width is positive. -/
lemma dRw_pos (ny j : ℕ) (h : 2 ≤ ny) : 0 < dRw ny j :=
  mul_pos (gridy_pos ny j) (by linarith [one_lt_logspace_y ny h])

/-- The interior point satisfies every prior bound. -/
lemma priorCond_theta0 : priorCond theta0 := by
  have e1 : Real.logb 10 (20 : ℝ) - Real.logb 10 (2 : ℝ) = Real.logb 10 (10 : ℝ) := by
    rw [← Real.logb_div (by norm_num) (by norm_num)]
    norm_num
  have e2 : Real.logb 10 (20 : ℝ) + Real.logb 10 (2 : ℝ) = Real.logb 10 (40 : ℝ) := by
    rw [← Real.logb_mul (by norm_num) (by norm_num)]
    norm_num
  unfold priorCond theta0 Pmin Pmax
  norm_num
  refine ⟨?_, ?_⟩
  · rw [e1]
    exact Real.logb_le_logb_of_le (by norm_num) (by norm_num) (by norm_num)
  · rw [e2]
    exact Real.logb_le_logb_of_le (by norm_num) (by norm_num) (by norm_num)

/-- The prior evaluates to zero at the interior point. -/
lemma log_prior_theta0 : log_prior theta0 = 0 := by
  unfold log_prior
  rw [if_pos priorCond_theta0]

/-- The prior rejects the point with F0 = 10. -/
lemma log_prior_thetaBad : log_prior thetaBad = ⊥ := by
  unfold log_prior
  rw [if_neg]
  intro h
  unfold priorCond thetaBad at h
  norm_num at h

/-- The prior never returns plus infinity. -/
lemma log_prior_ne_top (p : Fparam) : log_prior p ≠ ⊤ := by
  unfold log_prior
  split
  · exact EReal.zero_ne_top
  · exact bot_ne_top

/-- The prior returns zero exactly on its support. -/
lemma log_prior_eq_zero_iff (p : Fparam) : log_prior p = 0 ↔ priorCond p := by
  unfold log_prior
  split
  · next h => simp [h]
  · next h => simp [h, EReal.bot_ne_zero]

/-- C2: log_prior returns 0 if and only if theta satisfies all of the listed
bounds (including chi_1 > 1 - chi_1 and the two logb boundary constraints),
and otherwise returns negative infinity; in particular it returns 0 at
theta0 = (1,10,1,-1,20,0.8,0.2,2) and negative infinity at the same point
with F0 = 10. -/
theorem log_prior_characterization :
    (∀ p : Fparam, log_prior p = 0 ↔
      (0.05 < p.F0 ∧ p.F0 < 5 ∧
       2 < p.P_break ∧ p.P_break < 20 ∧
       -2 < p.beta_1 ∧ p.beta_1 < 5 ∧
       -2 < p.beta_2 ∧ p.beta_2 < 5 ∧
       4 < p.P_central ∧ p.P_central < 50 ∧
       (1 - p.chi_1) < p.chi_1 ∧
       0 < p.chi_1 ∧ p.chi_1 < 1 ∧
       0 < p.chi_2 ∧ p.chi_2 < 0.5 ∧
       1 < p.s ∧ p.s < 5 ∧
       Real.logb 10 (2 * Pmin) ≤ Real.logb 10 p.P_central - Real.logb 10 p.s ∧
       Real.logb 10 (0.5 * Pmax) ≥ Real.logb 10 p.P_central + Real.logb 10 p.s))
    ∧ (∀ p : Fparam, log_prior p = 0 ∨ log_prior p = ⊥)
    ∧ log_prior theta0 = 0
    ∧ log_prior thetaBad = ⊥ := by
  refine ⟨fun p => log_prior_eq_zero_iff p, fun p => ?_, log_prior_theta0, log_prior_thetaBad⟩
  unfold log_prior
  split
  · exact Or.inl rfl
  · exact Or.inr rfl

/-- C3: when the prior is not finite the posterior is negative infinity and
the likelihood is never evaluated (the result is the same for an arbitrary
likelihood function L); otherwise the posterior is prior plus likelihood. -/
theorem log_posterior_short_circuit (W : ℕ → ℕ → ℝ) (Rs : ℝ) (p : Fparam) (P R : List ℝ) :
    (log_prior p = ⊥ → ∀ L : Fparam → List ℝ → List ℝ → Option ℝ,
      log_posteriorAux L p P R = some ⊥)
    ∧ (log_prior p ≠ ⊥ → log_posterior W Rs p P R =
        (lnL W Rs p P R).map (fun l => log_prior p + (l : EReal))) := by
  constructor
  · intro h L
    unfold log_posteriorAux
    rw [if_pos (Or.inl h)]
  · intro h
    unfold log_posterior log_posteriorAux
    rw [if_neg]
    push_neg
    exact ⟨h, log_prior_ne_top p⟩

/-- Witness for C3 at the concrete rejected point (F0 = 10, likelihood never
consulted) and the concrete accepted point theta0. -/
theorem log_posterior_short_circuit_witness :
    log_posteriorAux (fun _ _ _ => none) thetaBad [] [] = some ⊥
    ∧ log_posterior (fun _ _ => 0) 2 theta0 [] [] =
        (lnL (fun _ _ => 0) 2 theta0 [] []).map (fun l => log_prior theta0 + (l : EReal)) :=
  ⟨(log_posterior_short_circuit (fun _ _ => 0) 2 thetaBad [] []).1 log_prior_thetaBad _,
   (log_posterior_short_circuit (fun _ _ => 0) 2 theta0 [] []).2
     (by rw [log_prior_theta0]; exact EReal.zero_ne_bot)⟩

/-- Adjacent geomspace samples differ by the constant ratio (b/a)^(1/(n-1)). -/
lemma geomspace_succ (a b : ℝ) (n i : ℕ) (ha : 0 < a) (hb : 0 < b) :
    geomspace a b n (i + 1) = (b / a) ^ ((1 : ℝ) / ((n : ℝ) - 1)) * geomspace a b n i := by
  unfold geomspace
  have hcast : ((i + 1 : ℕ) : ℝ) / ((n : ℝ) - 1) =
      (i : ℝ) / ((n : ℝ) - 1) + 1 / ((n : ℝ) - 1) := by
    push_cast
    ring
  rw [hcast, Real.rpow_add (div_pos hb ha)]
  ring

/-- The stored ratio logspace_x is exactly the geomspace step ratio. -/
lemma logspace_x_rpow (nx : ℕ) (h : 2 ≤ nx) :
    logspace_x nx = (Pmax / Pmin) ^ ((1 : ℝ) / ((nx : ℝ) - 1)) := by
  rw [logspace_x_eq nx h, Real.rpow_def_of_pos (by unfold Pmin Pmax; norm_num)]
  rw [Real.log_div (by unfold Pmax; norm_num) (by unfold Pmin; norm_num)]
  congr 1
  ring

/-- The stored ratio logspace_y is exactly the geomspace step ratio. -/
lemma logspace_y_rpow (ny : ℕ) (h : 2 ≤ ny) :
    logspace_y ny = (Rmax / Rmin) ^ ((1 : ℝ) / ((ny : ℝ) - 1)) := by
  rw [logspace_y_eq ny h, Real.rpow_def_of_pos (by unfold Rmin Rmax; norm_num)]
  rw [Real.log_div (by unfold Rmax; norm_num) (by unfold Rmin; norm_num)]
  congr 1
  ring

/-- C7: for any resolutions nx, ny at least 2, log_grid builds log spaced
coordinates running from (Pmin, Pmax) = (2, 100) and (Rmin, Rmax) = (1, 3.5),
every adjacent pair of coordinates differs by the single end to end geometric
ratio r = exp((log max - log min)/(n-1)), and every cell width equals
coordinate times (r - 1) with that same constant ratio for every cell. -/
theorem log_grid_cell_widths (nx ny : ℕ) (hx : 2 ≤ nx) (hy : 2 ≤ ny) :
    gridx nx 0 = Pmin ∧ gridx nx (nx - 1) = Pmax
    ∧ gridy ny 0 = Rmin ∧ gridy ny (ny - 1) = Rmax
    ∧ logspace_x nx = Real.exp ((Real.log Pmax - Real.log Pmin) / ((nx : ℝ) - 1))
    ∧ logspace_y ny = Real.exp ((Real.log Rmax - Real.log Rmin) / ((ny : ℝ) - 1))
    ∧ (∀ i : ℕ, gridx nx (i + 1) = logspace_x nx * gridx nx i)
    ∧ (∀ j : ℕ, gridy ny (j + 1) = logspace_y ny * gridy ny j)
    ∧ (∀ i : ℕ, dPw nx i = gridx nx i * (logspace_x nx - 1))
    ∧ (∀ j : ℕ, dRw ny j = gridy ny j * (logspace_y ny - 1)) := by
  refine ⟨(gridx_ends nx hx).1, (gridx_ends nx hx).2,
    (gridy_ends ny hy).1, (gridy_ends ny hy).2,
    logspace_x_eq nx hx, logspace_y_eq ny hy, ?_, ?_, fun i => rfl, fun j => rfl⟩
  · intro i
    rw [logspace_x_rpow nx hx]
    unfold gridx
    exact geomspace_succ _ _ _ _ (by unfold Pmin; norm_num) (by unfold Pmax; norm_num)
  · intro j
    rw [logspace_y_rpow ny hy]
    unfold gridy
    exact geomspace_succ _ _ _ _ (by unfold Rmin; norm_num) (by unfold Rmax; norm_num)

/-- Witness for C7 at the concrete default resolution 100 x 100. -/
theorem log_grid_cell_widths_witness :
    gridx 100 (100 - 1) = Pmax
    ∧ gridx 100 (7 + 1) = logspace_x 100 * gridx 100 7
    ∧ dPw 100 7 = gridx 100 7 * (logspace_x 100 - 1) :=
  ⟨(log_grid_cell_widths 100 100 (by norm_num) (by norm_num)).2.1,
   (log_grid_cell_widths 100 100 (by norm_num) (by norm_num)).2.2.2.2.2.2.1 7,
   (log_grid_cell_widths 100 100 (by norm_num) (by norm_num)).2.2.2.2.2.2.2.2.1 7⟩

/-- Factoring a constant out of the weighted grid sum of the shape function. -/
lemma sum_const_mul_g (Rs : ℝ) (p : Fparam) (c : ℝ) :
    (∑ j ∈ Finset.range 100, ∑ i ∈ Finset.range 100,
      c * g Rs (gridx 100 i) (gridy 100 j) p * dPw 100 i * dRw 100 j) =
      c * gIntegral Rs p := by
  unfold gIntegral
  rw [Finset.mul_sum]
  refine Finset.sum_congr rfl fun j _ => ?_
  rw [Finset.mul_sum]
  refine Finset.sum_congr rfl fun i _ => ?_
  ring

/-- C1: whenever the grid sum of g dP dR is positive, the grid sum of
Cn(theta) g dP dR is exactly 1 and the grid sum of df dP dR is exactly F0. -/
theorem normalization_invariant (Rs : ℝ) (p : Fparam) (h : 0 < gIntegral Rs p) :
    (∑ j ∈ Finset.range 100, ∑ i ∈ Finset.range 100,
      function_Cn Rs p * g Rs (gridx 100 i) (gridy 100 j) p * dPw 100 i * dRw 100 j) = 1
    ∧ (∑ j ∈ Finset.range 100, ∑ i ∈ Finset.range 100,
      df Rs (gridx 100 i) (gridy 100 j) p * dPw 100 i * dRw 100 j) = p.F0 := by
  constructor
  · rw [sum_const_mul_g]
    unfold function_Cn
    exact one_div_mul_cancel h.ne'
  · have hdf : (∑ j ∈ Finset.range 100, ∑ i ∈ Finset.range 100,
        df Rs (gridx 100 i) (gridy 100 j) p * dPw 100 i * dRw 100 j) =
        p.F0 * function_Cn Rs p * gIntegral Rs p := by
      rw [← sum_const_mul_g Rs p (p.F0 * function_Cn Rs p)]
      refine Finset.sum_congr rfl fun j _ => Finset.sum_congr rfl fun i _ => ?_
      unfold df
      ring
    rw [hdf]
    unfold function_Cn
    field_simp

/-- The grid sum of the shape function is strictly positive at theta0. -/
lemma gIntegral_theta0_pos : 0 < gIntegral 2 theta0 := by
  unfold gIntegral
  refine Finset.sum_pos (fun j _ => Finset.sum_pos (fun i _ => ?_)
    ⟨0, Finset.mem_range.mpr (by norm_num)⟩) ⟨0, Finset.mem_range.mpr (by norm_num)⟩
  refine mul_pos (mul_pos ?_ (dPw_pos 100 i (by norm_num))) (dRw_pos 100 j (by norm_num))
  refine g_pos 2 _ _ theta0 (gridx_pos 100 i) (gridy_pos 100 j) ?_ ?_ ?_ ?_ ?_
    (by norm_num) (by norm_num) <;> unfold theta0 <;> norm_num

/-- Witness for C1: the normalization identities hold at theta0 with the
module level radius split. -/
theorem normalization_invariant_witness :
    0 < gIntegral 2 theta0
    ∧ (∑ j ∈ Finset.range 100, ∑ i ∈ Finset.range 100,
      function_Cn 2 theta0 * g 2 (gridx 100 i) (gridy 100 j) theta0 *
        dPw 100 i * dRw 100 j) = 1
    ∧ (∑ j ∈ Finset.range 100, ∑ i ∈ Finset.range 100,
      df 2 (gridx 100 i) (gridy 100 j) theta0 * dPw 100 i * dRw 100 j) = theta0.F0 :=
  ⟨gIntegral_theta0_pos,
   (normalization_invariant 2 theta0 gIntegral_theta0_pos).1,
   (normalization_invariant 2 theta0 gIntegral_theta0_pos).2⟩

/-- C5: for any theta accepted by the prior and any radius split strictly
inside (Rmin, Rmax), the shape function is non negative at every point of
the fixed integration grid. -/
theorem g_nonneg_on_grid (Rs : ℝ) (p : Fparam) (hp : log_prior p = 0)
    (h1 : Rmin < Rs) (h2 : Rs < Rmax) :
    ∀ i j : ℕ, i < 100 → j < 100 → 0 ≤ g Rs (gridx 100 i) (gridy 100 j) p := by
  have hc := (log_prior_eq_zero_iff p).mp hp
  obtain ⟨_, _, hPb, _, _, _, _, _, _, _, _, hc1, hc1u, hc2, hc2u, _, _, _, _⟩ := hc
  have h1R : (1 : ℝ) < Rs := by
    unfold Rmin at h1
    norm_num at h1
    exact h1
  have h2R : Rs < 3.5 := by
    unfold Rmax at h2
    exact h2
  intro i j _ _
  exact le_of_lt (g_pos Rs _ _ p (gridx_pos 100 i) (gridy_pos 100 j)
    (by linarith) hc1 hc1u hc2 (by linarith) h1R h2R)

/-- Witness for C5 at theta0, the module level radius split, and the grid
corner. -/
theorem g_nonneg_on_grid_witness :
    0 ≤ g 2 (gridx 100 0) (gridy 100 0) theta0 :=
  g_nonneg_on_grid 2 theta0 log_prior_theta0 (by unfold Rmin; norm_num)
    (by unfold Rmax; norm_num) 0 0 (by norm_num) (by norm_num)

/-- The elementwise log of g summed over zipped samples equals the indexed
sum over the common length. -/
lemma zip_log_g_sum (Rs : ℝ) (p : Fparam) :
    ∀ P R : List ℝ, P.length = R.length →
    (List.map (fun q : ℝ × ℝ => Real.log (g Rs q.1 q.2 p)) (P.zip R)).sum =
      ∑ i ∈ Finset.range P.length, Real.log (g Rs (P.getD i 0) (R.getD i 0) p)
  | [], [], _ => by simp
  | [], _ :: _, h => by simp at h
  | _ :: _, [], h => by simp at h
  | a :: P, b :: R, h => by
      simp only [List.zip_cons_cons, List.map_cons, List.sum_cons, List.length_cons]
      rw [Finset.sum_range_succ']
      simp only [List.getD_cons_succ, List.getD_cons_zero]
      rw [zip_log_g_sum Rs p P R (by simpa using h)]
      ring

/-- C4: on samples with equally long P and R arrays, lnL equals
-N_exp + N_pl log F0 + N_pl log Cn + the sum over observed pairs of log g,
with N_exp and Cn the fixed grid functions. -/
theorem lnL_formula (W : ℕ → ℕ → ℝ) (Rs : ℝ) (p : Fparam) (P R : List ℝ)
    (h : P.length = R.length) :
    lnL W Rs p P R = some (-(function_Nexp W Rs p)
      + (P.length : ℝ) * Real.log p.F0
      + (P.length : ℝ) * Real.log (function_Cn Rs p)
      + ∑ i ∈ Finset.range P.length, Real.log (g Rs (P.getD i 0) (R.getD i 0) p)) := by
  unfold lnL function_Npl
  rw [if_pos h]
  rw [Option.map_some']
  rw [zip_log_g_sum Rs p P R h]

/-- Witness for C4 on a concrete one point sample. -/
theorem lnL_formula_witness : ∃ v, lnL (fun _ _ => 1) 2 theta0 [10] [2] = some v :=
  ⟨_, lnL_formula (fun _ _ => 1) 2 theta0 [10] [2] rfl⟩

/-- C10: function_Npl signals exactly on mismatched lengths, in which case
lnL propagates the failure; on equal lengths it returns the common length
and lnL succeeds, the empty sample contributing zero to every data term. -/
theorem function_Npl_assertion (W : ℕ → ℕ → ℝ) (Rs : ℝ) (p : Fparam) (P R : List ℝ) :
    (function_Npl P R = none ↔ P.length ≠ R.length)
    ∧ (P.length ≠ R.length → lnL W Rs p P R = none)
    ∧ (P.length = R.length → function_Npl P R = some P.length ∧
        ∃ v, lnL W Rs p P R = some v)
    ∧ lnL W Rs p [] [] = some (-(function_Nexp W Rs p)) := by
  refine ⟨?_, ?_, ?_, ?_⟩
  · unfold function_Npl
    split
    · next hl => simp [hl]
    · next hl => simp [hl]
  · intro h
    unfold lnL function_Npl
    rw [if_neg h]
    rfl
  · intro h
    constructor
    · unfold function_Npl
      rw [if_pos h]
    · unfold lnL function_Npl
      rw [if_pos h, Option.map_some']
      exact ⟨_, rfl⟩
  · unfold lnL function_Npl
    simp

/-- Witness for C10 on concrete mismatched and matched samples. -/
theorem function_Npl_assertion_witness :
    lnL (fun _ _ => 1) 2 theta0 [1] [] = none
    ∧ ∃ v, lnL (fun _ _ => 1) 2 theta0 [1] [2] = some v :=
  ⟨(function_Npl_assertion (fun _ _ => 1) 2 theta0 [1] []).2.1 (by simp),
   ((function_Npl_assertion (fun _ _ => 1) 2 theta0 [1] [2]).2.2.1 rfl).2⟩

/-- The parameter vector used to refute unconditional monotonicity of N_exp
in F0: both mixing ratios equal 10 (far outside the prior), flat power law. -/
noncomputable def thetaC (F0 : ℝ) : Fparam := ⟨F0, 10, 0, 0, 10, 10, 10, 2⟩

/-- A completeness grid supported on the rows with R at least 2. -/
noncomputable def Wc : ℕ → ℕ → ℝ := fun j _ => if j < 55 then 0 else 1

/-- The value of the split fraction at the counterexample parameters. -/
noncomputable def g2c : ℝ :=
  10 * (Real.log 3.5 - Real.log 2) / (10 * Real.log 3.5 - 19 * Real.log 2)

/-- At the counterexample parameters the mixing fraction is constantly 10. -/
lemma Xmix_thetaC (P F0 : ℝ) : Xmix P (thetaC F0) = 10 := by
  simp only [Xmix, thetaC]
  ring

/-- At the counterexample parameters the broken power law is constantly 1. -/
lemma occ_thetaC (P F0 : ℝ) : occ_SEMN P (thetaC F0) = 1 := by
  simp only [occ_SEMN, thetaC]
  rw [ite_self]
  exact Real.rpow_zero _

/-- Pointwise form of the shape function at the counterexample parameters. -/
lemma g_thetaC (P R F0 : ℝ) : g 2 P R (thetaC F0) = (if R < 2 then g2c else 1 - g2c) / R := by
  unfold g
  rw [occ_thetaC, mul_one]
  have hsplit : g2f 2 P (thetaC F0) = g2c := by
    unfold g2f g2c
    rw [Xmix_thetaC]
    unfold Rmin Rmax
    rw [show Real.log 1.0 = 0 by norm_num]
    congr 1
    ring
  rw [hsplit]

/-- The integer branch inequality behind the grid split at radius 2. -/
lemma nat_pow_lt_iff (j : ℕ) : (7 : ℕ) ^ j < 2 ^ (99 + j) ↔ j < 55 := by
  constructor
  · intro h
    by_contra hle
    push_neg at hle
    have h1 : (2 : ℕ) ^ 154 < 7 ^ 55 := by norm_num
    have h2 : (2 : ℕ) ^ (j - 55) ≤ 7 ^ (j - 55) := Nat.pow_le_pow_left (by norm_num) _
    have e1 : (2 : ℕ) ^ (99 + j) = 2 ^ 154 * 2 ^ (j - 55) := by
      rw [← pow_add]
      congr 1
      omega
    have e2 : (7 : ℕ) ^ 55 * 7 ^ (j - 55) = 7 ^ j := by
      rw [← pow_add]
      congr 1
      omega
    have hcontra : (2 : ℕ) ^ (99 + j) < 7 ^ j := by
      calc (2 : ℕ) ^ (99 + j) = 2 ^ 154 * 2 ^ (j - 55) := e1
        _ < 7 ^ 55 * 2 ^ (j - 55) := by
            exact mul_lt_mul_of_pos_right h1 (by positivity)
        _ ≤ 7 ^ 55 * 7 ^ (j - 55) := mul_le_mul_left' h2 _
        _ = 7 ^ j := e2
    omega
  · intro h
    have h1 : (7 : ℕ) ^ 54 < 2 ^ 153 := by norm_num
    have h2 : (2 : ℕ) ^ (54 - j) ≤ 7 ^ (54 - j) := Nat.pow_le_pow_left (by norm_num) _
    have e1 : (7 : ℕ) ^ j * 7 ^ (54 - j) = 7 ^ 54 := by
      rw [← pow_add]
      congr 1
      omega
    have e2 : (2 : ℕ) ^ (99 + j) * 2 ^ (54 - j) = 2 ^ 153 := by
      rw [← pow_add]
      congr 1
      omega
    have hkey : (7 : ℕ) ^ j * 2 ^ (54 - j) < 2 ^ (99 + j) * 2 ^ (54 - j) := by
      calc (7 : ℕ) ^ j * 2 ^ (54 - j) ≤ 7 ^ j * 7 ^ (54 - j) := mul_le_mul_left' h2 _
        _ = 7 ^ 54 := e1
        _ < 2 ^ 153 := h1
        _ = 2 ^ (99 + j) * 2 ^ (54 - j) := e2.symm
    exact lt_of_mul_lt_mul_right hkey (Nat.zero_le _)

/-- The radius grid crosses the split value 2 exactly between rows 54 and 55. -/
lemma gridy_lt_two_iff (j : ℕ) : gridy 100 j < 2 ↔ j < 55 := by
  have hy : gridy 100 j = (3.5 : ℝ) ^ ((j : ℝ) / 99) := by
    unfold gridy geomspace Rmin Rmax
    norm_num
  have hpow : gridy 100 j ^ (99 : ℕ) = (3.5 : ℝ) ^ (j : ℕ) := by
    rw [hy, ← Real.rpow_natCast ((3.5 : ℝ) ^ ((j : ℝ) / 99)) 99,
      ← Real.rpow_mul (by norm_num : (0 : ℝ) ≤ 3.5),
      show (j : ℝ) / 99 * ((99 : ℕ) : ℝ) = (j : ℝ) by push_cast; field_simp,
      Real.rpow_natCast]
  have hy_pos : 0 < gridy 100 j := gridy_pos 100 j
  have key : gridy 100 j < 2 ↔ (3.5 : ℝ) ^ (j : ℕ) < 2 ^ (99 : ℕ) := by
    constructor
    · intro h
      rw [← hpow]
      exact pow_lt_pow_left₀ h hy_pos.le (by norm_num)
    · intro h
      rw [← hpow] at h
      exact lt_of_pow_lt_pow_left₀ 99 (by norm_num) h
  rw [key, show (3.5 : ℝ) = 7 / 2 by norm_num, div_pow,
    div_lt_iff₀ (by positivity : (0 : ℝ) < (2 : ℝ) ^ j), ← pow_add,
    show ((7 : ℝ) ^ j) = ((7 ^ j : ℕ) : ℝ) by push_cast; ring,
    show ((2 : ℝ) ^ (99 + j)) = ((2 ^ (99 + j) : ℕ) : ℝ) by push_cast; ring,
    Nat.cast_lt]
  exact nat_pow_lt_iff j

/-- The total of the period cell widths. -/
noncomputable def Asum : ℝ := ∑ i ∈ Finset.range 100, dPw 100 i

/-- The period cell width total is positive. -/
lemma Asum_pos : 0 < Asum :=
  Finset.sum_pos (fun i _ => dPw_pos 100 i (by norm_num))
    ⟨0, Finset.mem_range.mpr (by norm_num)⟩

/-- The radius ratio excess is positive. -/
lemma ry_excess_pos : 0 < logspace_y 100 - 1 := by
  linarith [one_lt_logspace_y 100 (by norm_num)]

/-- One inner row of the grid sum at the counterexample parameters. -/
lemma inner_row_thetaC (F0 : ℝ) (j : ℕ) :
    (∑ i ∈ Finset.range 100,
      g 2 (gridx 100 i) (gridy 100 j) (thetaC F0) * dPw 100 i * dRw 100 j) =
      (if j < 55 then g2c else 1 - g2c) * ((logspace_y 100 - 1) * Asum) := by
  have hyne : gridy 100 j ≠ 0 := (gridy_pos 100 j).ne'
  have hterm : ∀ i ∈ Finset.range 100,
      g 2 (gridx 100 i) (gridy 100 j) (thetaC F0) * dPw 100 i * dRw 100 j =
      ((if j < 55 then g2c else 1 - g2c) * (logspace_y 100 - 1)) * dPw 100 i := by
    intro i _
    rw [g_thetaC]
    simp only [gridy_lt_two_iff]
    unfold dRw
    field_simp
    ring_nf
  rw [Finset.sum_congr rfl hterm, ← Finset.mul_sum]
  unfold Asum
  ring

/-- The split of the outer sum of the branch constants. -/
lemma branch_sum :
    (∑ j ∈ Finset.range 100, (if j < 55 then g2c else 1 - g2c)) =
      55 * g2c + 45 * (1 - g2c) := by
  rw [Finset.range_eq_Ico,
    ← Finset.sum_Ico_consecutive _ (by norm_num : (0 : ℕ) ≤ 55) (by norm_num : (55 : ℕ) ≤ 100)]
  have h1 : (∑ j ∈ Finset.Ico 0 55, (if j < 55 then g2c else 1 - g2c)) = 55 * g2c := by
    rw [Finset.sum_congr rfl fun j hj => if_pos (Finset.mem_Ico.mp hj).2]
    rw [Finset.sum_const, Nat.card_Ico]
    simp [nsmul_eq_mul]
  have h2 : (∑ j ∈ Finset.Ico 55 100, (if j < 55 then g2c else 1 - g2c)) =
      45 * (1 - g2c) := by
    rw [Finset.sum_congr rfl fun j hj => if_neg (by
      have := (Finset.mem_Ico.mp hj).1
      omega)]
    rw [Finset.sum_const, Nat.card_Ico]
    norm_num
  rw [h1, h2]

/-- Closed form of the full grid sum at the counterexample parameters. -/
lemma gIntegral_thetaC (F0 : ℝ) :
    gIntegral 2 (thetaC F0) =
      (55 * g2c + 45 * (1 - g2c)) * ((logspace_y 100 - 1) * Asum) := by
  unfold gIntegral
  rw [Finset.sum_congr rfl fun j _ => inner_row_thetaC F0 j, ← Finset.sum_mul, branch_sum]

/-- One inner row of the completeness weighted sum at the counterexample. -/
lemma inner_row_Wc_thetaC (F0 : ℝ) (j : ℕ) :
    (∑ i ∈ Finset.range 100,
      Wc j i * g 2 (gridx 100 i) (gridy 100 j) (thetaC F0) * dPw 100 i * dRw 100 j) =
      (if j < 55 then 0 else 1 - g2c) * ((logspace_y 100 - 1) * Asum) := by
  have hyne : gridy 100 j ≠ 0 := (gridy_pos 100 j).ne'
  have hterm : ∀ i ∈ Finset.range 100,
      Wc j i * g 2 (gridx 100 i) (gridy 100 j) (thetaC F0) * dPw 100 i * dRw 100 j =
      ((if j < 55 then 0 else 1 - g2c) * (logspace_y 100 - 1)) * dPw 100 i := by
    intro i _
    rw [g_thetaC]
    unfold Wc dRw
    simp only [gridy_lt_two_iff]
    split
    · field_simp
    · field_simp
      ring
  rw [Finset.sum_congr rfl hterm, ← Finset.mul_sum]
  unfold Asum
  ring

/-- The split of the weighted outer sum. -/
lemma branch_sum_Wc :
    (∑ j ∈ Finset.range 100, (if j < 55 then (0 : ℝ) else 1 - g2c)) = 45 * (1 - g2c) := by
  rw [Finset.range_eq_Ico,
    ← Finset.sum_Ico_consecutive _ (by norm_num : (0 : ℕ) ≤ 55) (by norm_num : (55 : ℕ) ≤ 100)]
  have h1 : (∑ j ∈ Finset.Ico 0 55, (if j < 55 then (0 : ℝ) else 1 - g2c)) = 0 := by
    rw [Finset.sum_congr rfl fun j hj => if_pos (Finset.mem_Ico.mp hj).2]
    simp
  have h2 : (∑ j ∈ Finset.Ico 55 100, (if j < 55 then (0 : ℝ) else 1 - g2c)) =
      45 * (1 - g2c) := by
    rw [Finset.sum_congr rfl fun j hj => if_neg (by
      have := (Finset.mem_Ico.mp hj).1
      omega)]
    rw [Finset.sum_const, Nat.card_Ico]
    norm_num
  rw [h1, h2, zero_add]

/-- Closed form of the weighted grid sum at the counterexample. -/
lemma NexpIntegral_thetaC (F0 : ℝ) :
    NexpIntegral Wc 2 (thetaC F0) = (45 * (1 - g2c)) * ((logspace_y 100 - 1) * Asum) := by
  unfold NexpIntegral
  rw [Finset.sum_congr rfl fun j _ => inner_row_Wc_thetaC F0 j, ← Finset.sum_mul,
    branch_sum_Wc]

/-- The denominator of the counterexample split fraction is negative,
because 3.5^10 < 2^19. -/
lemma g2c_den_neg : 10 * Real.log 3.5 - 19 * Real.log 2 < 0 := by
  have hlt : (3.5 : ℝ) ^ (10 : ℕ) < 2 ^ (19 : ℕ) := by norm_num
  have hlog := Real.log_lt_log (by positivity) hlt
  rw [Real.log_pow, Real.log_pow] at hlog
  push_cast at hlog
  linarith

/-- The two logarithms compare as 2 < 3.5. -/
lemma log_two_lt_log_35 : Real.log 2 < Real.log 3.5 :=
  Real.log_lt_log (by norm_num) (by norm_num)

/-- The counterexample split fraction is very negative, because
2^191 < 3.5^110. -/
lemma g2c_lt : g2c < -4.5 := by
  have hlt : (2 : ℝ) ^ (191 : ℕ) < 3.5 ^ (110 : ℕ) := by norm_num
  have hlog := Real.log_lt_log (by positivity) hlt
  rw [Real.log_pow, Real.log_pow] at hlog
  push_cast at hlog
  unfold g2c
  rw [div_lt_iff_of_neg g2c_den_neg]
  linarith

/-- C6 counterexample: with the completeness grid Wc (entries 0 or 1, all
non negative) held fixed, raising F0 from 1 to 2 with every other component
unchanged strictly decreases N_exp, refuting unconditional monotonicity. -/
theorem Nexp_not_monotone_in_F0 :
    function_Nexp Wc 2 (thetaC 2) < function_Nexp Wc 2 (thetaC 1) := by
  have hB : 55 * g2c + 45 * (1 - g2c) < 0 := by linarith [g2c_lt]
  have hpos : 0 < (logspace_y 100 - 1) * Asum := mul_pos ry_excess_pos Asum_pos
  have hS : gIntegral 2 (thetaC 2) < 0 := by
    rw [gIntegral_thetaC]
    exact mul_neg_of_neg_of_pos hB hpos
  have hSeq : gIntegral 2 (thetaC 1) = gIntegral 2 (thetaC 2) := rfl
  have hS' : 0 < NexpIntegral Wc 2 (thetaC 2) := by
    rw [NexpIntegral_thetaC]
    have : 0 < 45 * (1 - g2c) := by linarith [g2c_lt]
    exact mul_pos this hpos
  have hS'eq : NexpIntegral Wc 2 (thetaC 1) = NexpIntegral Wc 2 (thetaC 2) := rfl
  unfold function_Nexp function_Cn
  rw [hSeq, hS'eq]
  have hF2 : (thetaC 2).F0 = 2 := rfl
  have hF1 : (thetaC 1).F0 = 1 := rfl
  rw [hF1, hF2]
  have hneg : 1 / gIntegral 2 (thetaC 2) * NexpIntegral Wc 2 (thetaC 2) < 0 :=
    mul_neg_of_neg_of_pos (by
      rw [one_div_neg]
      exact hS) hS'
  nlinarith [hneg]

/-- The grid sum of the shape function is positive whenever the break, both
mixing ratios, and the radius split are in their valid ranges. -/
lemma gIntegral_pos (Rs : ℝ) (p : Fparam) (hPb : 0 < p.P_break)
    (hc1 : 0 < p.chi_1) (hc1u : p.chi_1 < 1) (hc2 : 0 < p.chi_2) (hc2u : p.chi_2 < 1)
    (hRs : 1 < Rs) (hRsu : Rs < 3.5) : 0 < gIntegral Rs p := by
  unfold gIntegral
  refine Finset.sum_pos (fun j _ => Finset.sum_pos (fun i _ => ?_)
    ⟨0, Finset.mem_range.mpr (by norm_num)⟩) ⟨0, Finset.mem_range.mpr (by norm_num)⟩
  exact mul_pos (mul_pos
    (g_pos Rs _ _ p (gridx_pos 100 i) (gridy_pos 100 j) hPb hc1 hc1u hc2 hc2u hRs hRsu)
    (dPw_pos 100 i (by norm_num))) (dRw_pos 100 j (by norm_num))

/-- C6 amended: N_exp is non decreasing in F0 once the shared non F0
components keep the shape function positive on the grid (break period
positive, both mixing ratios in (0,1), radius split inside (Rmin, Rmax))
and the completeness entries are non negative; the counterexample shows the
restriction cannot be dropped. -/
theorem Nexp_monotone_in_F0 (p : Fparam) (F0' : ℝ) (W : ℕ → ℕ → ℝ) (Rs : ℝ)
    (hW : ∀ j i : ℕ, 0 ≤ W j i) (hPb : 0 < p.P_break)
    (hc1 : 0 < p.chi_1) (hc1u : p.chi_1 < 1) (hc2 : 0 < p.chi_2) (hc2u : p.chi_2 < 1)
    (hRs : 1 < Rs) (hRsu : Rs < 3.5) (hF : p.F0 ≤ F0') :
    function_Nexp W Rs p ≤ function_Nexp W Rs { p with F0 := F0' } := by
  have hCn : function_Cn Rs { p with F0 := F0' } = function_Cn Rs p := rfl
  have hNI : NexpIntegral W Rs { p with F0 := F0' } = NexpIntegral W Rs p := rfl
  unfold function_Nexp
  rw [hCn, hNI]
  have hCn_pos : 0 < function_Cn Rs p := by
    unfold function_Cn
    exact div_pos one_pos (gIntegral_pos Rs p hPb hc1 hc1u hc2 hc2u hRs hRsu)
  have hNI_nonneg : 0 ≤ NexpIntegral W Rs p := by
    unfold NexpIntegral
    refine Finset.sum_nonneg fun j _ => Finset.sum_nonneg fun i _ => ?_
    have hg := g_pos Rs (gridx 100 i) (gridy 100 j) p (gridx_pos 100 i) (gridy_pos 100 j)
      hPb hc1 hc1u hc2 hc2u hRs hRsu
    have h1 := dPw_pos 100 i (by norm_num)
    have h2 := dRw_pos 100 j (by norm_num)
    have := hW j i
    positivity
  exact mul_le_mul_of_nonneg_right
    (mul_le_mul_of_nonneg_right hF hCn_pos.le) hNI_nonneg

/-- Witness for the amended C6 at theta0, a uniform completeness grid, and
F0 raised from 1 to 2. -/
theorem Nexp_monotone_in_F0_witness :
    function_Nexp (fun _ _ => 1) 2 theta0 ≤
      function_Nexp (fun _ _ => 1) 2 { theta0 with F0 := 2 } :=
  Nexp_monotone_in_F0 theta0 2 (fun _ _ => 1) 2 (fun _ _ => by norm_num)
    (by unfold theta0; norm_num) (by unfold theta0; norm_num) (by unfold theta0; norm_num)
    (by unfold theta0; norm_num) (by unfold theta0; norm_num)
    (by norm_num) (by norm_num) (by unfold theta0; norm_num)

namespace Driver

/-- A linear congruential step, standing in for the numpy global generator.
What matters for the claims is only the seeding structure: np.random.seed
resets the state as a function of the seed argument alone, and every variate
deterministically advances the state. -/
def lcg (s : ℕ) : ℕ := (s * 1664525 + 1013904223) % 4294967296

/-- The state of the modelled global random generator. -/
structure RNG where
  state : ℕ

/-- np.random.seed: the previous state is discarded entirely. -/
def seed (n : ℕ) (_r : RNG) : RNG := ⟨lcg n⟩

/-- One uniform variate in [0,1) together with the advanced state. -/
def unif (r : RNG) : ℚ × RNG :=
  ((lcg r.state : ℚ) / 4294967296, ⟨lcg r.state⟩)

/-- A list of n variates, threading the state. -/
def genList : ℕ → RNG → List ℚ × RNG
  | 0, r => ([], r)
  | n + 1, r =>
      let v := unif r
      let rest := genList n v.2
      (v.1 :: rest.1, rest.2)

/-- The walker jitter pos = initial + 1e-4 * randn(nwalk, ndim), row by
row; the uniform variate stands in for the Gaussian draw, whose
distribution is irrelevant to the claims. -/
def jitterPos (initial : List ℚ) : ℕ → RNG → List (List ℚ) × RNG
  | 0, r => ([], r)
  | n + 1, r =>
      let row := genList initial.length r
      let rest := jitterPos initial n row.2
      (((initial.zip row.1).map fun q => q.1 + (q.2 - 1 / 2) / 10000) :: rest.1, rest.2)

/-- One row of np.random.choice([True,False], size=nd, p=[rel,1-rel]):
threshold tests against successive variates.  The reliability rel in [0,1]
is carried as the integer threshold rel * 2^32, so that the inclusion test
variate/2^32 < rel is the integer comparison variate < threshold. -/
def bernRow (rel : ℕ) : ℕ → RNG → List Bool × RNG
  | 0, r => ([], r)
  | n + 1, r =>
      let s := lcg r.state
      let rest := bernRow rel n ⟨s⟩
      (decide (s < rel) :: rest.1, rest.2)

/-- The use_array of one mass bin: one Bernoulli row per candidate
reliability, num_draws columns per row. -/
def useArray (rels : List ℕ) (nd : ℕ) (r : RNG) : List (List Bool) × RNG :=
  match rels with
  | [] => ([], r)
  | rel :: rest =>
      let row := bernRow rel nd r
      let tail := useArray rest nd row.2
      (row.1 :: tail.1, tail.2)

/-- The bin prologue np.random.seed(42) followed by
pos = initial + 1e-4 * np.random.randn(16, len(initial)). -/
def binPos (initial : List ℚ) (r0 : RNG) : List (List ℚ) × RNG :=
  jitterPos initial 16 (seed 42 r0)

/-- The resampling table, computed after walker initialization with no
reseeding in between. -/
def binUseArray (initial : List ℚ) (rels : List ℕ) (nd : ℕ) (r0 : RNG) :
    List (List Bool) :=
  (useArray rels nd (binPos initial r0).2).1

/-- Two candidate reliabilities, 0.52 and 0.9, as thresholds out of 2^32. -/
def rels0 : List ℕ := [13 * 4294967296 / 25, 9 * 4294967296 / 10]

/-- The initial guess of the first mass bin. -/
def init0 : List ℚ :=
  [68 / 100, 9223 / 1000, 639 / 1000, -868 / 1000,
   11419 / 1000, 847 / 1000, 395 / 1000, 2496 / 1000]

/-- A record of one sampler invocation: the draw index and the initial
ensemble it was started from. -/
structure DrawCall where
  draw : ℕ
  posUsed : List (List ℚ)
deriving DecidableEq

/-- The loop state of one mass bin: the walker initialization pos, the draw
counter, and the record of sampler invocations so far. -/
structure BinState where
  pos : List (List ℚ)
  draw : ℕ
  calls : List DrawCall
deriving DecidableEq

/-- One iteration of the draw loop: run_mcmc is invoked with the current
pos; nothing in the loop body writes pos. -/
def drawStep (st : BinState) : BinState :=
  ⟨st.pos, st.draw + 1, st.calls ++ [⟨st.draw, st.pos⟩]⟩

/-- The state at the top of the draw loop. -/
def binInit (initial : List ℚ) (r0 : RNG) : BinState :=
  ⟨(binPos initial r0).1, 0, []⟩

/-- Closed form of iterating the draw loop. -/
lemma drawStep_iterate (st : BinState) (n : ℕ) :
    drawStep^[n] st =
      ⟨st.pos, st.draw + n,
        st.calls ++ (List.range n).map fun d => ⟨st.draw + d, st.pos⟩⟩ := by
  induction n with
  | zero => simp
  | succ n ih =>
      rw [Function.iterate_succ_apply', ih]
      unfold drawStep
      simp [List.range_succ]
      omega

end Driver

set_option maxRecDepth 100000 in
/-- C8 corrected: the per bin seed is fixed before walker initialization, so
both the walker jitter and the Bernoulli resampling table are independent of
the incoming generator state (two runs of the same bin produce identical
subsamples), while distinct draw columns within a bin use distinct segments
of the stream and can differ from each other. -/
theorem seeding_reproducibility :
    (∀ (r0 r0' : Driver.RNG) (initial : List ℚ),
      Driver.binPos initial r0 = Driver.binPos initial r0')
    ∧ (∀ (r0 r0' : Driver.RNG) (initial : List ℚ) (rels : List ℕ) (nd : ℕ),
      Driver.binUseArray initial rels nd r0 = Driver.binUseArray initial rels nd r0')
    ∧ (Driver.binUseArray Driver.init0 Driver.rels0 2 ⟨0⟩).map
        (fun row => row.getD 0 false) ≠
      (Driver.binUseArray Driver.init0 Driver.rels0 2 ⟨0⟩).map
        (fun row => row.getD 1 false) := by
  refine ⟨fun r0 r0' initial => rfl, fun r0 r0' initial rels nd => rfl, ?_⟩
  have h : Driver.binUseArray Driver.init0 Driver.rels0 2 ⟨0⟩ =
      [[false, true], [false, false]] := rfl
  rw [h]
  decide

set_option maxRecDepth 100000 in
/-- C8 counterexample: the Bernoulli subsamples of one bin are fully
determined by the fixed per bin seed; two runs from different incoming
generator states produce identical draw to draw subsamples. -/
theorem seeding_determines_draws :
    Driver.binUseArray Driver.init0 Driver.rels0 2 ⟨0⟩ =
      Driver.binUseArray Driver.init0 Driver.rels0 2 ⟨987654321⟩ := rfl

/-- C9: within a bin, pos is computed once before the draw loop, no draw
iteration modifies it, and every sampler run starts from that identical
initial ensemble. -/
theorem walkers_initialized_once (initial : List ℚ) (r0 : Driver.RNG) (n i : ℕ)
    (h : i < n) :
    (Driver.drawStep^[n] (Driver.binInit initial r0)).pos =
      (Driver.binPos initial r0).1
    ∧ (Driver.drawStep^[n] (Driver.binInit initial r0)).calls.get? i =
        some ⟨i, (Driver.binPos initial r0).1⟩ := by
  rw [Driver.drawStep_iterate]
  refine ⟨rfl, ?_⟩
  simp only [Driver.binInit, List.nil_append, List.get?_eq_getElem?, List.getElem?_map,
    List.getElem?_range h, Option.map_some', Nat.zero_add]

/-- Witness for C9: after three loop iterations, the second sampler call
used the bin initial ensemble. -/
theorem walkers_initialized_once_witness :
    (Driver.drawStep^[3] (Driver.binInit Driver.init0 ⟨0⟩)).calls.get? 1 =
      some ⟨1, (Driver.binPos Driver.init0 ⟨0⟩).1⟩ :=
  (walkers_initialized_once Driver.init0 ⟨0⟩ 3 1 (by norm_num)).2
